import Mathlib

/-!
Verification of the StockHunter-cn core against its specification.

The development shallowly embeds the two core subsystems of the repository:

* the incremental synchronization engine (`src/downloader.py`): the
  per-symbol series merge performed by `download_worker`, the planner
  decision of `check_status_worker`, and the round/circuit-breaker loop of
  `StockDownloader.run`;
* the technical feature / backtest engine (`src/data_analyzer.py`):
  `TechnicalAnalyzer._process_one_stock` and the indicator columns it
  computes.

Modelling conventions:

* Calendar dates (`YYYY-MM-DD` strings in the code, compared
  lexicographically, which on well-formed ISO dates agrees with
  chronological order) are modelled as `Nat` day numbers; "yesterday" is
  `today - 1`.
* Python/pandas float64 arithmetic is idealized as exact rational (`ℚ`)
  arithmetic; a pandas `NaN` cell is modelled as `none : Option ℚ`, and a
  float comparison against `NaN` is `false`, as in pandas.
* `DataFrame` columns are `List (Option ℚ)` of the same length as the
  series; a series row keeps only the columns the analyzer reads
  (`date, high, low, close, volume`); presentational string fields of
  the result row (state labels, the arrow-joined trajectory) are omitted,
  and the match-reason strings are represented by an inductive tag type.
-/

set_option maxRecDepth 1000000

namespace StockHunter

/-! ## SeriesStore records and the append-merge of `download_worker`

`download_worker` (src/downloader.py lines 141-155): for an append-mode
task on an existing file with a non-empty fetched batch it reads the old
CSV, concatenates old and new frames, drops duplicate dates keeping the
last occurrence (`drop_duplicates(subset=['date'], keep='last')`), sorts
ascending by date (`sort_values('date')`; dates are unique after the
dedup, so the sort result does not depend on the sorting algorithm), and
writes the result back.  If reading the old file raises, the `except`
branch overwrites the file with just the new frame. -/

/-- One CSV row of a per-symbol series file: the date key plus the
remaining columns (`code,open,high,low,close,volume,amount,adjustflag,
turn,pctChg`), which the merge treats as an uninterpreted payload. -/
structure SeriesRec where
  date : Nat
  payload : List ℚ
deriving DecidableEq, Repr

/-- `true` iff some record of `l` carries date `d`. -/
def hasDate (l : List SeriesRec) (d : Nat) : Bool :=
  l.any (fun r => r.date == d)

/-- `drop_duplicates(subset=['date'], keep='last')`: a row is kept iff no
later row has the same date; kept rows stay in their relative order. -/
def dropDupKeepLast : List SeriesRec → List SeriesRec
  | [] => []
  | r :: rs => if hasDate rs r.date then dropDupKeepLast rs
               else r :: dropDupKeepLast rs

/-- `sort_values('date')`: sort ascending by the date key. -/
def sortByDate (l : List SeriesRec) : List SeriesRec :=
  List.insertionSort (fun a b => a.date ≤ b.date) l

/-- The append-merge of `download_worker` (lines 145-149): concatenate the
existing series with the incoming batch, deduplicate by date keeping the
last (= incoming) occurrence, and re-sort ascending by date. -/
def mergeAppend (old incoming : List SeriesRec) : List SeriesRec :=
  sortByDate (dropDupKeepLast (old ++ incoming))

/-- The store-update step of one append-mode task (lines 141-155), as seen
by a later reader of the file: `readOk` tells whether `pd.read_csv` on the
existing file succeeded.  On success the merged result is written; on a
read failure the `except` branch writes the incoming batch alone,
replacing the previous content. -/
def mergeStep (oldOnDisk : List SeriesRec) (readOk : Bool)
    (incoming : List SeriesRec) : List SeriesRec :=
  if readOk then mergeAppend oldOnDisk incoming else incoming

instance : IsTotal SeriesRec (fun a b => a.date ≤ b.date) :=
  ⟨fun a b => Nat.le_total a.date b.date⟩

instance : IsTrans SeriesRec (fun a b => a.date ≤ b.date) :=
  ⟨fun _ _ _ hab hbc => Nat.le_trans hab hbc⟩

instance : IsAntisymm SeriesRec (fun a b => a.date < b.date) :=
  ⟨fun a _ hab hba => absurd (Nat.lt_trans hab hba) (Nat.lt_irrefl a.date)⟩

/-! ## SyncExecutor round loop and circuit breaker (`StockDownloader.run`)

`StockDownloader.run` (src/downloader.py lines 257-299) runs up to
`MAX_ATTEMPTS` rounds.  Within a round the chunk results arrive from the
worker pool (in arrival order, which `imap_unordered` leaves
unspecified — the model therefore takes the arrival sequence as input);
for each chunk, a non-empty success list resets `consecutive_fail` to 0,
an empty one adds the chunk's failure count; when `consecutive_fail`
reaches `ABORT_THRESHOLD` the pool is terminated, the round stops
consuming chunk results, and the `break` after the round ends the whole
run.  Between-round task filtering and sleeping do not affect the abort
dynamics and are not modelled. -/

/-- `MAX_ATTEMPTS` from config.py. -/
def MAX_ATTEMPTS : Nat := 7

/-- `ABORT_THRESHOLD` from config.py. -/
def ABORT_THRESHOLD : Nat := 50

/-- The outcome of one worker chunk: the sizes of the success and failed
lists returned by `download_worker`. -/
structure ChunkOutcome where
  succeeded : Nat
  failed : Nat
deriving DecidableEq, Repr

/-- The `consecutive_fail` update for one chunk result (lines 284-287). -/
def stepFail (cf : Nat) (c : ChunkOutcome) : Nat :=
  if 0 < c.succeeded then 0 else cf + c.failed

/-- One round's consumption of chunk results (lines 271-292): returns
whether the round aborted and how many chunk results were consumed. -/
def runRound : Nat → List ChunkOutcome → Bool × Nat
  | _, [] => (false, 0)
  | cf, c :: cs =>
    let cf2 := stepFail cf c
    if ABORT_THRESHOLD ≤ cf2 then (true, 1)
    else ((runRound cf2 cs).1, (runRound cf2 cs).2 + 1)

/-- The multi-round loop (lines 257-297) over the would-be chunk-outcome
sequences of each round: returns how many rounds ran and whether the run
aborted.  An aborting round `break`s out of the attempt loop, so no later
round starts. -/
def runSync : List (List ChunkOutcome) → Nat × Bool
  | [] => (0, false)
  | r :: rs =>
    if (runRound 0 r).1 then (1, true)
    else ((runSync rs).1 + 1, (runSync rs).2)

/-- Total failure volume of a list of chunk outcomes. -/
def sumFail (l : List ChunkOutcome) : Nat := (l.map ChunkOutcome.failed).sum

/-! ## SyncPlanner (`check_status_worker`)

`check_status_worker` (src/downloader.py lines 48-87) decides, per
symbol, whether a fetch is needed and from which start date.  Dates are
modelled as day numbers; `lastDate = none` models an unreadable last line
(`get_last_date` returning `None`). -/

/-- `DEFAULT_START_DATE` from config.py ("2023-01-01"), as an abstract
day number. -/
def DEFAULT_START_DATE : Nat := 0

/-- `DATA_READY_HOUR` from config.py. -/
def DATA_READY_HOUR : Nat := 17

/-- The fetch mode: `'w'` (full rewrite) or `'a'` (append-merge). -/
inductive FetchMode where
  | full
  | incremental
deriving DecidableEq, Repr

/-- The planner's per-symbol decision. -/
inductive Plan where
  | skip
  | fetch (startDate : Nat) (mode : FetchMode)
deriving DecidableEq, Repr

/-- `check_status_worker`: no file or unreadable last date → full fetch
from the default start; last date ≥ today → skip; last date = yesterday
before the data-ready hour → skip; otherwise an incremental fetch from
the day after the last date (the remaining `new_start_date > today` guard
of line 83 is unreachable then, since `lastDate < today`). -/
def check_status (fileExists : Bool) (lastDate : Option Nat)
    (today hour : Nat) : Plan :=
  if fileExists = false then Plan.fetch DEFAULT_START_DATE FetchMode.full
  else
    match lastDate with
    | none => Plan.fetch DEFAULT_START_DATE FetchMode.full
    | some ld =>
      if today ≤ ld then Plan.skip
      else if ld = today - 1 ∧ hour < DATA_READY_HOUR then Plan.skip
      else if today < ld + 1 then Plan.skip
      else Plan.fetch (ld + 1) FetchMode.incremental

/-! ## FeatureEngine: indicator columns

`_process_one_stock` (src/data_analyzer.py lines 74-100) computes whole
indicator columns over the series and then reads them at the evaluation
index.  The indicator internals live in the third-party `pandas_ta`
library, not in this repository; they are modelled from the spec's
definitions (SMA over a trailing window; MACD(12,26,9) as
EMA12 − EMA26 with a 9-period signal line; RSI(14) by Wilder smoothing;
KDJ(9,3)), with each exponential smoothing seeded by the n-period simple
average of its first n values (`pandas_ta`'s `sma=True` seeding,
`adjust=False` recursion) and masked (`NaN` = `none`) before its seed.
A cell that pandas would set to `NaN` is `none`; ℚ division by zero
yields 0 where pandas float division would yield `NaN`/`inf` — no claim
below depends on such a cell. -/

/-- A column prefix-padded with `p` missing cells followed by values. -/
def padded (p : Nat) (vs : List ℚ) : List (Option ℚ) :=
  List.replicate p none ++ vs.map some

/-- A column of the shape "nones, then values": the shape of every
indicator column on NaN-free input. -/
def IsPadded (x : List (Option ℚ)) : Prop :=
  ∃ p vs, x = padded p vs

/-- Mean of a window (pandas `rolling(n).mean()` body). -/
def meanQ (l : List ℚ) : ℚ := l.sum / l.length

/-- Maximum of a non-empty window (pandas `.max()`). -/
def maxQ : List ℚ → ℚ
  | [] => 0
  | x :: xs => xs.foldl max x

/-- Minimum of a non-empty window (pandas `.min()`). -/
def minQ : List ℚ → ℚ
  | [] => 0
  | x :: xs => xs.foldl min x

/-- The trailing window of length `n` ending at index `j`. -/
def windowEnd (n : Nat) (l : List ℚ) (j : Nat) : List ℚ :=
  (l.take (j + 1)).drop (j + 1 - n)

/-- A pandas rolling aggregate with `min_periods = n`: `none` until a full
window is available. -/
def rollingCol (f : List ℚ → ℚ) (n : Nat) (l : List ℚ) : List (Option ℚ) :=
  (List.range l.length).map
    (fun j => if n ≤ j + 1 then some (f (windowEnd n l j)) else none)

/-- `ta.sma(close, length=n)`: the rolling mean. -/
def smaCol (n : Nat) (l : List ℚ) : List (Option ℚ) := rollingCol meanQ n l

/-- The exponential recursion `y ← a·x + (1−a)·y` over a list, emitting
each updated value. -/
def emaFrom (a : ℚ) : ℚ → List ℚ → List ℚ
  | _, [] => []
  | y, x :: xs => (a * x + (1 - a) * y) :: emaFrom a (a * x + (1 - a) * y) xs

/-- An exponential smoothing column with factor `a`, seeded at position
`n−1` by the simple average of the first `n` values and `none` before
that; all-`none` when fewer than `n` values exist. -/
def smoothCol (a : ℚ) (n : Nat) (l : List ℚ) : List (Option ℚ) :=
  if l.length < n ∨ n = 0 then padded l.length []
  else padded (n - 1)
    (meanQ (l.take n) :: emaFrom a (meanQ (l.take n)) (l.drop n))

/-- `ta.ema(close, length=n)` (`sma=True` seeding): factor `2/(n+1)`. -/
def emaCol (n : Nat) (l : List ℚ) : List (Option ℚ) :=
  smoothCol (2 / (n + 1)) n l

/-- Number of leading missing cells of a column
(`first_valid_index`). -/
def leadNones (x : List (Option ℚ)) : Nat :=
  (x.takeWhile Option.isNone).length

/-- Exponential smoothing of a column that starts with missing cells:
slice from the first valid index, smooth the values, re-pad (the
`macd.loc[macd.first_valid_index():,]` slicing of `pandas_ta`). -/
def smoothOptCol (a : ℚ) (n : Nat) (x : List (Option ℚ)) : List (Option ℚ) :=
  List.replicate (leadNones x) none
    ++ smoothCol a n ((x.drop (leadNones x)).reduceOption)

/-- Cell-wise combination of two columns; any missing operand gives a
missing result (float `NaN` propagation). -/
def zipWithOpt (f : ℚ → ℚ → ℚ) : List (Option ℚ) → List (Option ℚ) → List (Option ℚ) :=
  List.zipWith (fun a b =>
    match a, b with
    | some x, some y => some (f x y)
    | _, _ => none)

/-- MACD DIF: `EMA12 − EMA26` of the closes. -/
def difCol (l : List ℚ) : List (Option ℚ) :=
  zipWithOpt (fun a b => a - b) (emaCol 12 l) (emaCol 26 l)

/-- MACD DEA: the 9-period signal smoothing of DIF, applied from DIF's
first valid index. -/
def deaCol (l : List ℚ) : List (Option ℚ) :=
  smoothOptCol (2 / 10) 9 (difCol l)

/-- `close.diff()`: first cell missing, then successive differences. -/
def diffCol (l : List ℚ) : List (Option ℚ) :=
  match l with
  | [] => []
  | x :: xs => none :: List.zipWith (fun prev cur => some (cur - prev)) (x :: xs) xs

/-- Positive parts of the daily differences (RSI numerator input). -/
def gainsCol (l : List ℚ) : List (Option ℚ) :=
  (diffCol l).map (Option.map (fun d => max d 0))

/-- Magnitudes of the negative daily differences. -/
def lossesCol (l : List ℚ) : List (Option ℚ) :=
  (diffCol l).map (Option.map (fun d => max (-d) 0))

/-- `ta.rsi(close, length=14)`: `100·up/(up+down)` of the Wilder-smoothed
(factor `1/14`) gains and losses. -/
def rsiCol (l : List ℚ) : List (Option ℚ) :=
  zipWithOpt (fun p q => 100 * p / (p + q))
    (smoothOptCol (1 / 14) 14 (gainsCol l))
    (smoothOptCol (1 / 14) 14 (lossesCol l))

/-- KDJ raw stochastic value over the 9-day window:
`100·(close − low₉)/(high₉ − low₉)`. -/
def rsvCol (highs lows closes : List ℚ) : List (Option ℚ) :=
  (List.range closes.length).map (fun j =>
    if 9 ≤ j + 1 then
      some (100 * (closes.getD j 0 - minQ (windowEnd 9 lows j)) /
        (maxQ (windowEnd 9 highs j) - minQ (windowEnd 9 lows j)))
    else none)

/-- KDJ K line: 3-period Wilder smoothing of the raw stochastic. -/
def kdjKCol (highs lows closes : List ℚ) : List (Option ℚ) :=
  smoothOptCol (1 / 3) 3 (rsvCol highs lows closes)

/-- KDJ D line: 3-period Wilder smoothing of K. -/
def kdjDCol (highs lows closes : List ℚ) : List (Option ℚ) :=
  smoothOptCol (1 / 3) 3 (kdjKCol highs lows closes)

/-! ## TechnicalAnalyzer._process_one_stock -/

/-- One parsed CSV row with the columns the analyzer reads. -/
structure Row where
  date : Nat
  high : ℚ
  low : ℚ
  close : ℚ
  volume : ℚ
deriving DecidableEq, Repr

def closesOf (rows : List Row) : List ℚ := rows.map Row.close

def highsOf (rows : List Row) : List ℚ := rows.map Row.high

def lowsOf (rows : List Row) : List ℚ := rows.map Row.low

def volumesOf (rows : List Row) : List ℚ := rows.map Row.volume

/-- Read a column at a row position (`curr = df.iloc[idx]`); out of range
behaves as a missing cell. -/
def colAt (x : List (Option ℚ)) (i : Nat) : Option ℚ := x.getD i none

/-- A pandas float comparison `a > b`: `false` whenever either side is
`NaN`. -/
def gtNaN : Option ℚ → Option ℚ → Bool
  | some a, some b => decide (b < a)
  | _, _ => false

/-- Python `round(·)` to an integer: round half to even. -/
def roundHalfEven (q : ℚ) : ℤ :=
  if q - ⌊q⌋ < 1 / 2 then ⌊q⌋
  else if (1 : ℚ) / 2 < q - ⌊q⌋ then ⌊q⌋ + 1
  else if ⌊q⌋ % 2 = 0 then ⌊q⌋ else ⌊q⌋ + 1

/-- Python `round(·, 2)` idealized over ℚ. -/
def pyRound2 (q : ℚ) : ℚ := (roundHalfEven (q * 100) : ℚ) / 100

/-- `curr['close']` at the evaluation index. -/
def closeAt (rows : List Row) (i : Nat) : ℚ := (closesOf rows).getD i 0

/-- Line 157: `cond1 = curr['close'] > curr['MA20']`. -/
def cond1At (rows : List Row) (i : Nat) : Bool :=
  gtNaN (some (closeAt rows i)) (colAt (smaCol 20 (closesOf rows)) i)

/-- Lines 130-132: MACD state is "golden cross" iff `DIF > DEA`. -/
def macdGoldAt (rows : List Row) (i : Nat) : Bool :=
  gtNaN (colAt (difCol (closesOf rows)) i) (colAt (deaCol (closesOf rows)) i)

/-- Lines 135-138: KDJ state is "golden cross" iff `K > D`. -/
def kdjGoldAt (rows : List Row) (i : Nat) : Bool :=
  gtNaN (colAt (kdjKCol (highsOf rows) (lowsOf rows) (closesOf rows)) i)
    (colAt (kdjDCol (highsOf rows) (lowsOf rows) (closesOf rows)) i)

/-- Lines 150-152: volume ratio `round(volume / VOL_MA5, 2)`, or 0 when
the 5-day volume average is missing or non-positive. -/
def volRelAt (rows : List Row) (i : Nat) : ℚ :=
  match colAt (smaCol 5 (volumesOf rows)) i with
  | some vm => if 0 < vm then pyRound2 ((volumesOf rows).getD i 0 / vm) else 0
  | none => 0

/-- Line 160: `strategy_pass = cond1 or (MACD golden or KDJ golden)`. -/
def strategyPassAt (rows : List Row) (i : Nat) : Bool :=
  cond1At rows i || (macdGoldAt rows i || kdjGoldAt rows i)

/-- The match-reason tags of lines 167-170, in source order:
`站上月线` (above the monthly line), `MACD金叉` (MACD golden cross),
`放量` (volume surge). -/
inductive Reason where
  | aboveMonthly
  | macdGolden
  | volSurge
deriving DecidableEq, Repr

/-- Lines 166-171: the reason list in its fixed order; the empty list
renders as `自选观察` ("watchlist observation"). -/
def reasonsAt (rows : List Row) (i : Nat) : List Reason :=
  (if cond1At rows i then [Reason.aboveMonthly] else [])
    ++ (if macdGoldAt rows i then [Reason.macdGolden] else [])
    ++ (if 3 / 2 < volRelAt rows i then [Reason.volSurge] else [])

/-- The four backtest return columns (percent, two decimals). -/
structure BtReturns where
  t5 : ℚ
  t10 : ℚ
  t30 : ℚ
  maxGain : ℚ
deriving DecidableEq, Repr

/-- Lines 207-224: forward returns from the rows strictly after `i`,
each defaulting to 0 when its horizon (5/10/30 rows; at least one row for
the max-gain) is not available. -/
def btReturnsAt (rows : List Row) (i : Nat) (buy : ℚ) : BtReturns :=
  let fut := rows.drop (i + 1)
  { t5 := if 5 ≤ fut.length then
      pyRound2 (((closesOf fut).getD 4 0 - buy) / buy * 100) else 0
  , t10 := if 10 ≤ fut.length then
      pyRound2 (((closesOf fut).getD 9 0 - buy) / buy * 100) else 0
  , t30 := if 30 ≤ fut.length then
      pyRound2 (((closesOf fut).getD 29 0 - buy) / buy * 100) else 0
  , maxGain := if 0 < fut.length then
      pyRound2 ((maxQ ((highsOf fut).take 30) - buy) / buy * 100) else 0 }

/-- The analyzer's per-symbol output row, restricted to the fields the
claims speak about (state labels and other presentational strings are
omitted; an empty `reasons` list renders as `自选观察`). -/
structure StockResult where
  evalDate : Nat
  buyPrice : ℚ
  reasons : List Reason
  isWatchlist : Bool
  bt : Option BtReturns
deriving DecidableEq, Repr

/-- `past_data.index[-1]`: the last (largest) row position whose date is
`≤ t`, if any. -/
def lastIdxLe (rows : List Row) (t : Nat) : Option Nat :=
  (rows.foldl (fun (acc : Nat × Option Nat) r =>
    (acc.1 + 1, if r.date ≤ t then some acc.1 else acc.2)) (0, none)).2

/-- Lines 102-111: the evaluation index.  In backtest mode with a date,
the last row on/before it (none if there is no such row or it sits before
row 60); otherwise the last row. -/
def resolveIdx (rows : List Row) (backtest : Bool) (btDate : Option Nat) :
    Option Nat :=
  match backtest, btDate with
  | true, some t =>
    match lastIdxLe rows t with
    | none => none
    | some i => if i < 60 then none else some i
  | _, _ => some (rows.length - 1)

/-- `_process_one_stock` (lines 50-230): the guards, the evaluation-index
resolution, the strategy filter, the reason list, and the backtest
returns.  Exceptions (unreadable file, malformed columns) and the
watchlist-scope filter correspond to the `none` outcomes. -/
def processOneStock (rows : List Row) (isVip watchOnly backtest : Bool)
    (btDate : Option Nat) : Option StockResult :=
  if rows.length < 60 then none
  else if watchOnly && !isVip then none
  else
    match resolveIdx rows backtest btDate with
    | none => none
    | some i =>
      match rows[i]? with
      | none => none
      | some curr =>
        if !strategyPassAt rows i && !isVip then none
        else some
          { evalDate := curr.date
          , buyPrice := curr.close
          , reasons := reasonsAt rows i
          , isWatchlist := isVip
          , bt := if backtest then some (btReturnsAt rows i curr.close)
                  else none }

/-- The fixed precedence of the reason tags in the source (lines
168-170). -/
def reasonRank : Reason → Nat
  | Reason.aboveMonthly => 0
  | Reason.macdGolden => 1
  | Reason.volSurge => 2

/-- A fixed two-row series used to instantiate universally quantified
feature theorems. -/
def twoRows : List Row := [⟨0, 1, 1, 1, 1⟩, ⟨1, 2, 1, 2, 1⟩]

/-- An all-zero row for degenerate witness series. -/
def row0 : Row := ⟨0, 0, 0, 0, 0⟩

/-- A constant 60-row series (dates 0..n−1, flat prices). -/
def constRows (n : Nat) : List Row :=
  (List.range n).map (fun j => ⟨j, 20, 0, 10, 1⟩)

/-- A series engineered so that at the last row the KDJ lines alone show
a golden cross: flat closes (so `close = MA20` and MACD sits at zero),
flat volume, and a 9-row window of lowered highs that lifts the raw
stochastic right at the end. -/
def kdjOnlyRows : List Row :=
  (List.range 60).map (fun j =>
    { date := j, high := if j < 51 then 100 else 60, low := 0, close := 50,
      volume := 1 })

/-- The analyzer output row of the C6 scenario. -/
def obsRes : StockResult :=
  { evalDate := 59, buyPrice := 50, reasons := [], isWatchlist := false,
    bt := none }

/-- A flat 66-row series whose single price move sits 5 rows after the
backtest index 60. -/
def fwdRows : List Row :=
  (List.range 66).map (fun j =>
    { date := j, high := 20, low := 0, close := if j = 65 then 15 else 10,
      volume := 1 })

/-- A flat 71-row series with exactly 10 rows after backtest index 60 and
a price move at the very last of them. -/
def fwdRows10 : List Row :=
  (List.range 71).map (fun j =>
    { date := j, high := 20, low := 0, close := if j = 70 then 30 else 10,
      volume := 1 })

/-- The analyzer output row of the 10-future-row scenario: `T+10` is a
computed 200%, `T+30` stays at the 0 default. -/
def resFwd10 : StockResult :=
  { evalDate := 60, buyPrice := 10, reasons := [], isWatchlist := true,
    bt := some { t5 := 0, t10 := 200, t30 := 0, maxGain := 100 } }

/-! ### Merge lemmas -/

theorem hasDate_iff {l : List SeriesRec} {d : Nat} :
    hasDate l d = true ↔ ∃ r ∈ l, r.date = d := by
  simp [hasDate, List.any_eq_true, Nat.beq_eq_true_eq]

theorem hasDate_cons (a : SeriesRec) (t : List SeriesRec) (d : Nat) :
    hasDate (a :: t) d = ((a.date == d) || hasDate t d) := rfl

theorem hasDate_append (a b : List SeriesRec) (d : Nat) :
    hasDate (a ++ b) d = (hasDate a d || hasDate b d) := by
  simp [hasDate, List.any_append]

theorem mem_of_mem_dropDupKeepLast {l : List SeriesRec} {r : SeriesRec}
    (h : r ∈ dropDupKeepLast l) : r ∈ l := by
  induction l with
  | nil => simp [dropDupKeepLast] at h
  | cons a t ih =>
    cases hd : hasDate t a.date with
    | true =>
      rw [dropDupKeepLast, hd, if_pos rfl] at h
      exact List.mem_cons_of_mem a (ih h)
    | false =>
      rw [dropDupKeepLast, hd] at h
      simp only [Bool.false_eq_true, if_false] at h
      rcases List.mem_cons.mp h with h | h
      · exact h ▸ List.mem_cons_self a t
      · exact List.mem_cons_of_mem a (ih h)

theorem hasDate_dropDupKeepLast (l : List SeriesRec) (d : Nat) :
    hasDate (dropDupKeepLast l) d = hasDate l d := by
  induction l with
  | nil => rfl
  | cons a t ih =>
    cases hd : hasDate t a.date with
    | true =>
      rw [dropDupKeepLast, hd, if_pos rfl, ih, hasDate_cons]
      by_cases had : a.date = d
      · subst had
        simp [hd]
      · have hne : (a.date == d) = false := by
          simpa using had
        simp [hne]
    | false =>
      rw [dropDupKeepLast, hd]
      simp only [Bool.false_eq_true, if_false]
      rw [hasDate_cons, hasDate_cons, ih]

theorem nodup_dates_dropDupKeepLast (l : List SeriesRec) :
    ((dropDupKeepLast l).map SeriesRec.date).Nodup := by
  induction l with
  | nil => simp [dropDupKeepLast]
  | cons a t ih =>
    cases hd : hasDate t a.date with
    | true =>
      rw [dropDupKeepLast, hd, if_pos rfl]
      exact ih
    | false =>
      rw [dropDupKeepLast, hd]
      simp only [Bool.false_eq_true, if_false, List.map_cons, List.nodup_cons]
      refine ⟨?_, ih⟩
      intro hmem
      rcases List.mem_map.mp hmem with ⟨r, hr, hrd⟩
      have : hasDate t a.date = true := by
        rw [← hasDate_dropDupKeepLast]
        exact hasDate_iff.mpr ⟨r, hr, hrd⟩
      rw [hd] at this
      exact Bool.false_ne_true this

theorem dropDupKeepLast_append (a b : List SeriesRec) :
    dropDupKeepLast (a ++ b) =
      (dropDupKeepLast a).filter (fun r => !hasDate b r.date)
        ++ dropDupKeepLast b := by
  induction a with
  | nil => simp [dropDupKeepLast]
  | cons r t ih =>
    rw [List.cons_append, dropDupKeepLast, hasDate_append, dropDupKeepLast]
    cases ht : hasDate t r.date with
    | true =>
      rw [if_pos rfl]
      simp only [Bool.true_or, if_pos rfl]
      exact ih
    | false =>
      simp only [Bool.false_or]
      cases hb : hasDate b r.date with
      | true => simp [ih, List.filter_cons, hb]
      | false => simp [ih, List.filter_cons, hb]

theorem dropDupKeepLast_eq_self {l : List SeriesRec}
    (h : (l.map SeriesRec.date).Nodup) : dropDupKeepLast l = l := by
  induction l with
  | nil => rfl
  | cons a t ih =>
    simp only [List.map_cons, List.nodup_cons] at h
    cases hd : hasDate t a.date with
    | true =>
      rcases hasDate_iff.mp hd with ⟨r, hr, hrd⟩
      exact absurd (List.mem_map.mpr ⟨r, hr, hrd⟩) h.1
    | false =>
      rw [dropDupKeepLast, hd]
      simp only [Bool.false_eq_true, if_false]
      rw [ih h.2]

theorem perm_sortByDate (l : List SeriesRec) : (sortByDate l).Perm l :=
  List.perm_insertionSort _ l

theorem sorted_sortByDate (l : List SeriesRec) :
    (sortByDate l).Pairwise (fun a b => a.date ≤ b.date) :=
  List.sorted_insertionSort _ l

/-- A list sorted weakly by date whose dates are distinct is sorted
strictly by date. -/
theorem pairwise_lt_of_sorted_nodup {l : List SeriesRec}
    (hs : l.Pairwise (fun a b => a.date ≤ b.date))
    (hn : (l.map SeriesRec.date).Nodup) :
    l.Pairwise (fun a b => a.date < b.date) := by
  have hne : l.Pairwise (fun a b => a.date ≠ b.date) :=
    (List.pairwise_map.mp hn)
  exact (hs.and hne).imp (fun h => Nat.lt_of_le_of_ne h.1 h.2)

theorem nodup_dates_mergeAppend (old incoming : List SeriesRec) :
    ((mergeAppend old incoming).map SeriesRec.date).Nodup := by
  have hperm : ((mergeAppend old incoming).map SeriesRec.date).Perm
      ((dropDupKeepLast (old ++ incoming)).map SeriesRec.date) :=
    (perm_sortByDate _).map SeriesRec.date
  exact hperm.nodup_iff.mpr (nodup_dates_dropDupKeepLast _)

theorem sorted_strict_mergeAppend (old incoming : List SeriesRec) :
    (mergeAppend old incoming).Pairwise (fun a b => a.date < b.date) :=
  pairwise_lt_of_sorted_nodup (sorted_sortByDate _)
    (nodup_dates_mergeAppend old incoming)

theorem hasDate_congr_perm {l₁ l₂ : List SeriesRec} (h : l₁.Perm l₂)
    (d : Nat) : hasDate l₁ d = hasDate l₂ d := by
  cases h2 : hasDate l₂ d with
  | true =>
    rcases hasDate_iff.mp h2 with ⟨r, hr, hrd⟩
    exact hasDate_iff.mpr ⟨r, h.mem_iff.mpr hr, hrd⟩
  | false =>
    cases h1 : hasDate l₁ d with
    | false => rfl
    | true =>
      rcases hasDate_iff.mp h1 with ⟨r, hr, hrd⟩
      have : hasDate l₂ d = true := hasDate_iff.mpr ⟨r, h.mem_iff.mp hr, hrd⟩
      rw [h2] at this
      exact (Bool.false_ne_true this).elim

theorem perm_mergeAppend (old incoming : List SeriesRec) :
    (mergeAppend old incoming).Perm (dropDupKeepLast (old ++ incoming)) :=
  perm_sortByDate _

/-- **C1.** For an existing series and an incoming batch whose dates are
distinct (as delivered by the upstream source), the append-merge of
`download_worker` produces the union of old and new records deduplicated
by date keeping the incoming record on a collision, re-sorted strictly
ascending by date: afterwards every date occurs at most once, every
incoming record is present verbatim, every merged record stems from the
old series or the batch, a merged record whose date occurs in the batch is
the batch's record, and every old date is still represented. -/
theorem merge_append_correct (old incoming : List SeriesRec)
    (hinc : (incoming.map SeriesRec.date).Nodup) :
    ((mergeAppend old incoming).map SeriesRec.date).Nodup
    ∧ (mergeAppend old incoming).Pairwise (fun a b => a.date < b.date)
    ∧ (∀ r ∈ incoming, r ∈ mergeAppend old incoming)
    ∧ (∀ r ∈ mergeAppend old incoming, r ∈ old ∨ r ∈ incoming)
    ∧ (∀ r ∈ mergeAppend old incoming,
        hasDate incoming r.date = true → r ∈ incoming)
    ∧ (∀ r ∈ old, hasDate (mergeAppend old incoming) r.date = true) := by
  have hperm := perm_mergeAppend old incoming
  have hdecomp := dropDupKeepLast_append old incoming
  have hself : dropDupKeepLast incoming = incoming := dropDupKeepLast_eq_self hinc
  refine ⟨nodup_dates_mergeAppend old incoming,
    sorted_strict_mergeAppend old incoming, ?_, ?_, ?_, ?_⟩
  · intro r hr
    apply hperm.mem_iff.mpr
    rw [hdecomp, hself]
    exact List.mem_append_right _ hr
  · intro r hr
    have : r ∈ old ++ incoming :=
      mem_of_mem_dropDupKeepLast (hperm.mem_iff.mp hr)
    exact List.mem_append.mp this
  · intro r hr hd
    have hr2 := hperm.mem_iff.mp hr
    rw [hdecomp, hself] at hr2
    rcases List.mem_append.mp hr2 with hr3 | hr3
    · have := List.of_mem_filter hr3
      rw [hd] at this
      simp at this
    · exact hr3
  · intro r hr
    rw [hasDate_congr_perm hperm, hasDate_dropDupKeepLast, hasDate_append]
    have : hasDate old r.date = true := hasDate_iff.mpr ⟨r, hr, rfl⟩
    rw [this, Bool.true_or]

/-- Witness for C1 at a concrete input: old series with dates 1,2 and an
incoming batch with dates 2,3 and a changed payload for date 2. -/
theorem merge_append_correct_witness :
    ((([⟨2, [99]⟩, ⟨3, [30]⟩] : List SeriesRec).map SeriesRec.date).Nodup)
    ∧ (((mergeAppend [⟨1, [10]⟩, ⟨2, [20]⟩] [⟨2, [99]⟩, ⟨3, [30]⟩]).map
          SeriesRec.date).Nodup
      ∧ (mergeAppend [⟨1, [10]⟩, ⟨2, [20]⟩] [⟨2, [99]⟩, ⟨3, [30]⟩]).Pairwise
          (fun a b => a.date < b.date)
      ∧ (∀ r ∈ ([⟨2, [99]⟩, ⟨3, [30]⟩] : List SeriesRec),
          r ∈ mergeAppend [⟨1, [10]⟩, ⟨2, [20]⟩] [⟨2, [99]⟩, ⟨3, [30]⟩])
      ∧ (∀ r ∈ mergeAppend [⟨1, [10]⟩, ⟨2, [20]⟩] [⟨2, [99]⟩, ⟨3, [30]⟩],
          r ∈ ([⟨1, [10]⟩, ⟨2, [20]⟩] : List SeriesRec)
          ∨ r ∈ ([⟨2, [99]⟩, ⟨3, [30]⟩] : List SeriesRec))
      ∧ (∀ r ∈ mergeAppend [⟨1, [10]⟩, ⟨2, [20]⟩] [⟨2, [99]⟩, ⟨3, [30]⟩],
          hasDate [⟨2, [99]⟩, ⟨3, [30]⟩] r.date = true
          → r ∈ ([⟨2, [99]⟩, ⟨3, [30]⟩] : List SeriesRec))
      ∧ (∀ r ∈ ([⟨1, [10]⟩, ⟨2, [20]⟩] : List SeriesRec),
          hasDate (mergeAppend [⟨1, [10]⟩, ⟨2, [20]⟩] [⟨2, [99]⟩, ⟨3, [30]⟩])
            r.date = true)) :=
  ⟨by decide, merge_append_correct [⟨1, [10]⟩, ⟨2, [20]⟩]
    [⟨2, [99]⟩, ⟨3, [30]⟩] (by decide)⟩

theorem filter_idem (p : SeriesRec → Bool) (l : List SeriesRec) :
    (l.filter p).filter p = l.filter p := by
  induction l with
  | nil => rfl
  | cons a t ih =>
    cases hp : p a with
    | true => simp [List.filter_cons, hp, ih]
    | false => simp [List.filter_cons, hp, ih]

/-- **C10.** The append-merge is idempotent in the incoming batch: merging
the same batch into the already-merged series again reproduces the merged
series exactly (same records, same order). -/
theorem merge_append_idem (old incoming : List SeriesRec) :
    mergeAppend (mergeAppend old incoming) incoming = mergeAppend old incoming := by
  set M := mergeAppend old incoming with hM
  set p : SeriesRec → Bool := fun r => !hasDate incoming r.date with hp
  have hMnodup : (M.map SeriesRec.date).Nodup := nodup_dates_mergeAppend old incoming
  -- the second merge's pre-sort list
  have h1 : dropDupKeepLast (M ++ incoming) =
      M.filter p ++ dropDupKeepLast incoming := by
    rw [dropDupKeepLast_append, dropDupKeepLast_eq_self hMnodup]
  -- it is a permutation of the first merge's pre-sort list
  have h2 : (M.filter p).Perm ((dropDupKeepLast (old ++ incoming)).filter p) :=
    (perm_mergeAppend old incoming).filter p
  have h3 : (dropDupKeepLast (old ++ incoming)).filter p =
      (dropDupKeepLast old).filter p := by
    rw [dropDupKeepLast_append, List.filter_append, filter_idem]
    have hnil : (dropDupKeepLast incoming).filter p = [] := by
      rw [List.filter_eq_nil_iff]
      intro r hr
      have hmem : r ∈ incoming := mem_of_mem_dropDupKeepLast hr
      have : hasDate incoming r.date = true := hasDate_iff.mpr ⟨r, hmem, rfl⟩
      simp [hp, this]
    rw [hnil, List.append_nil]
  have h4 : (dropDupKeepLast (M ++ incoming)).Perm
      (dropDupKeepLast (old ++ incoming)) := by
    rw [h1, dropDupKeepLast_append old incoming]
    exact h3 ▸ h2.append_right _
  have hperm : (mergeAppend M incoming).Perm M :=
    (perm_mergeAppend M incoming).trans
      (h4.trans (perm_mergeAppend old incoming).symm)
  exact List.eq_of_perm_of_sorted hperm
    (sorted_strict_mergeAppend M incoming)
    (sorted_strict_mergeAppend old incoming)

/-! ## C2: behaviour of the merge step under failures

The spec demands that on any failure during an append-merge the previous
on-disk content stays intact.  In the code (lines 150-152) a failure to
read the old file falls into the bare `except` branch, which overwrites
the file with the incoming batch alone. -/

/-- **C2 counterexample.** A read failure during an append-merge does NOT
leave the previous on-disk content intact: for an on-disk series holding
the single record with date 1 and an incoming batch holding only date 2,
the failure path replaces the file with the batch, and the old record
(indeed its very date) is gone. -/
theorem mergeStep_read_failure_counterexample :
    mergeStep [⟨1, [10]⟩] false [⟨2, [20]⟩] = [⟨2, [20]⟩]
    ∧ (⟨1, [10]⟩ : SeriesRec) ∉ mergeStep [⟨1, [10]⟩] false [⟨2, [20]⟩]
    ∧ hasDate (mergeStep [⟨1, [10]⟩] false [⟨2, [20]⟩]) 1 = false := by
  refine ⟨rfl, ?_, rfl⟩
  intro h
  rw [show mergeStep [⟨1, [10]⟩] false [⟨2, [20]⟩] = [⟨2, [20]⟩] from rfl] at h
  have hd : (1 : Nat) = 2 := congrArg SeriesRec.date (List.mem_singleton.mp h)
  exact absurd hd (by decide)

/-- **C2 (amended).** On a successful read the merge writes the full
merged result and every old date is still represented; but on a failure to
read the old series file the incoming batch alone overwrites the store,
and any old record whose date is not in the batch is lost. -/
theorem mergeStep_failure_semantics (disk incoming : List SeriesRec)
    (r : SeriesRec) (hr : r ∈ disk) :
    (mergeStep disk true incoming = mergeAppend disk incoming
      ∧ hasDate (mergeStep disk true incoming) r.date = true)
    ∧ (mergeStep disk false incoming = incoming
      ∧ (hasDate incoming r.date = false → r ∉ mergeStep disk false incoming)) := by
  refine ⟨⟨rfl, ?_⟩, rfl, ?_⟩
  · show hasDate (mergeAppend disk incoming) r.date = true
    rw [hasDate_congr_perm (perm_mergeAppend disk incoming),
      hasDate_dropDupKeepLast, hasDate_append,
      hasDate_iff.mpr ⟨r, hr, rfl⟩, Bool.true_or]
  · intro hnone hmem
    show False
    have : hasDate incoming r.date = true := hasDate_iff.mpr ⟨r, hmem, rfl⟩
    rw [hnone] at this
    exact Bool.false_ne_true this

/-- Witness for the amended C2 at the counterexample's input. -/
theorem mergeStep_failure_semantics_witness :
    ((⟨1, [10]⟩ : SeriesRec) ∈ ([⟨1, [10]⟩] : List SeriesRec))
    ∧ ((mergeStep [⟨1, [10]⟩] true [⟨2, [20]⟩] =
          mergeAppend [⟨1, [10]⟩] [⟨2, [20]⟩]
        ∧ hasDate (mergeStep [⟨1, [10]⟩] true [⟨2, [20]⟩])
            (SeriesRec.date ⟨1, [10]⟩) = true)
      ∧ (mergeStep [⟨1, [10]⟩] false [⟨2, [20]⟩] = [⟨2, [20]⟩]
        ∧ (hasDate [⟨2, [20]⟩] (SeriesRec.date ⟨1, [10]⟩) = false →
            (⟨1, [10]⟩ : SeriesRec) ∉ mergeStep [⟨1, [10]⟩] false [⟨2, [20]⟩]))) :=
  ⟨List.mem_singleton.mpr rfl,
    mergeStep_failure_semantics [⟨1, [10]⟩] [⟨2, [20]⟩] ⟨1, [10]⟩
      (List.mem_singleton.mpr rfl)⟩

theorem sumFail_cons (c : ChunkOutcome) (cs : List ChunkOutcome) :
    sumFail (c :: cs) = c.failed + sumFail cs := by
  simp [sumFail]

/-- In a round of all-failing chunks with enough accumulated volume, the
round aborts, exactly at the first chunk where the accumulated failure
count reaches the threshold. -/
theorem runRound_aborts : ∀ (l : List ChunkOutcome) (cf : Nat),
    cf < ABORT_THRESHOLD → (∀ c ∈ l, c.succeeded = 0) →
    ABORT_THRESHOLD ≤ cf + sumFail l →
    (runRound cf l).1 = true
    ∧ ABORT_THRESHOLD ≤ cf + sumFail (l.take (runRound cf l).2)
    ∧ ∀ m < (runRound cf l).2, cf + sumFail (l.take m) < ABORT_THRESHOLD := by
  intro l
  induction l with
  | nil =>
    intro cf hcf _ hvol
    rw [sumFail, List.map_nil, List.sum_nil, Nat.add_zero] at hvol
    exact absurd hvol (Nat.not_le_of_lt hcf)
  | cons c cs ih =>
    intro cf hcf hall hvol
    have hc0 : c.succeeded = 0 := hall c (List.mem_cons_self c cs)
    have hstep : stepFail cf c = cf + c.failed := by
      rw [stepFail, hc0]
      rfl
    by_cases habort : ABORT_THRESHOLD ≤ cf + c.failed
    · have hrun : runRound cf (c :: cs) = (true, 1) := by
        rw [runRound, hstep, if_pos habort]
      refine ⟨by rw [hrun], ?_, ?_⟩
      · rw [hrun]
        simpa [sumFail] using habort
      · intro m hm
        rw [hrun] at hm
        interval_cases m
        simpa [sumFail] using hcf
    · have hlt : cf + c.failed < ABORT_THRESHOLD := Nat.lt_of_not_le habort
      have hvol2 : ABORT_THRESHOLD ≤ (cf + c.failed) + sumFail cs := by
        rw [sumFail_cons] at hvol
        omega
      have hall2 : ∀ x ∈ cs, x.succeeded = 0 :=
        fun x hx => hall x (List.mem_cons_of_mem c hx)
      obtain ⟨hab, hhit, hmin⟩ := ih (cf + c.failed) hlt hall2 hvol2
      have hrun : runRound cf (c :: cs) =
          ((runRound (cf + c.failed) cs).1, (runRound (cf + c.failed) cs).2 + 1) := by
        rw [runRound, hstep, if_neg habort]
      refine ⟨by rw [hrun]; exact hab, ?_, ?_⟩
      · rw [hrun]
        simpa [List.take_succ_cons, sumFail_cons, Nat.add_assoc] using hhit
      · intro m hm
        rw [hrun] at hm
        cases m with
        | zero => simpa [sumFail] using hcf
        | succ m2 =>
          have hm2 : m2 < (runRound (cf + c.failed) cs).2 := by omega
          have := hmin m2 hm2
          simpa [List.take_succ_cons, sumFail_cons, Nat.add_assoc] using this

/-- **C7.** The circuit breaker: a chunk with at least one success resets
the failure counter, an all-fail chunk adds its failure volume; a first
round of all-failing chunks whose volume reaches `ABORT_THRESHOLD` aborts
at the first chunk where the accumulated count reaches the threshold
(consuming no chunk result beyond it), ends the whole run right there
(exactly one round runs, of the available `MAX_ATTEMPTS`). -/
theorem circuit_breaker (firstRound : List ChunkOutcome)
    (laterRounds : List (List ChunkOutcome))
    (hall : ∀ c ∈ firstRound, c.succeeded = 0)
    (hvol : ABORT_THRESHOLD ≤ sumFail firstRound) :
    (∀ cf c, 0 < c.succeeded → stepFail cf c = 0)
    ∧ (∀ cf c, c.succeeded = 0 → stepFail cf c = cf + c.failed)
    ∧ (runRound 0 firstRound).1 = true
    ∧ ABORT_THRESHOLD ≤ sumFail (firstRound.take (runRound 0 firstRound).2)
    ∧ (∀ m < (runRound 0 firstRound).2,
        sumFail (firstRound.take m) < ABORT_THRESHOLD)
    ∧ runSync (firstRound :: laterRounds) = (1, true)
    ∧ 1 < MAX_ATTEMPTS := by
  have h0 : (0 : Nat) < ABORT_THRESHOLD := by decide
  obtain ⟨hab, hhit, hmin⟩ := runRound_aborts firstRound 0 h0 hall
    (by simpa using hvol)
  refine ⟨?_, ?_, hab, by simpa using hhit,
    fun m hm => by simpa using hmin m hm, ?_, by decide⟩
  · intro cf c hc
    rw [stepFail, if_pos hc]
  · intro cf c hc
    rw [stepFail, hc]
    rfl
  · rw [runSync, if_pos hab]

/-- Witness for C7: three all-failing chunks of 20 tasks each trip the
threshold of 50 inside round 1 of 7. -/
theorem circuit_breaker_witness :
    (∀ c ∈ ([⟨0, 20⟩, ⟨0, 20⟩, ⟨0, 20⟩] : List ChunkOutcome), c.succeeded = 0)
    ∧ ABORT_THRESHOLD ≤ sumFail [⟨0, 20⟩, ⟨0, 20⟩, ⟨0, 20⟩]
    ∧ runSync ([⟨0, 20⟩, ⟨0, 20⟩, ⟨0, 20⟩] :: [[], [], [], [], [], []]) = (1, true) :=
  ⟨by decide, by decide,
    (circuit_breaker [⟨0, 20⟩, ⟨0, 20⟩, ⟨0, 20⟩] [[], [], [], [], [], []]
      (by decide) (by decide)).2.2.2.2.2.1⟩

/-- **C9.** The planner's decision, case by case: missing file or
unreadable last date → full fetch from the default start date; stored
series already at (or past) today → no fetch; last date = yesterday
before the cutoff hour → no fetch; in every other case an incremental
fetch starting the day after the last stored date. -/
theorem check_status_cases :
    (∀ ld today hour, check_status false ld today hour =
        Plan.fetch DEFAULT_START_DATE FetchMode.full)
    ∧ (∀ today hour, check_status true none today hour =
        Plan.fetch DEFAULT_START_DATE FetchMode.full)
    ∧ (∀ ld today hour, today ≤ ld →
        check_status true (some ld) today hour = Plan.skip)
    ∧ (∀ ld today hour, ld < today → ld = today - 1 → hour < DATA_READY_HOUR →
        check_status true (some ld) today hour = Plan.skip)
    ∧ (∀ ld today hour, ld < today → ¬(ld = today - 1 ∧ hour < DATA_READY_HOUR) →
        check_status true (some ld) today hour =
          Plan.fetch (ld + 1) FetchMode.incremental) := by
  refine ⟨fun ld today hour => by simp [check_status],
    fun today hour => by simp [check_status], ?_, ?_, ?_⟩
  · intro ld today hour h
    simp [check_status, if_pos h]
  · intro ld today hour h1 h2 h3
    have hnle : ¬ today ≤ ld := Nat.not_le_of_lt h1
    simp [check_status, hnle, h2, h3]
  · intro ld today hour h1 h2
    have hnle : ¬ today ≤ ld := Nat.not_le_of_lt h1
    have h3 : ¬ today < ld + 1 := by omega
    simp [check_status, hnle, h2, h3]

/-- Witness for C9 at the spec's cutoff example: last date = yesterday,
hour 16 (< 17) skips; hour 17 fetches incrementally from today. -/
theorem check_status_cases_witness :
    ((99 : Nat) < 100 ∧ (99 : Nat) = 100 - 1 ∧ (16 : Nat) < DATA_READY_HOUR
      ∧ check_status true (some 99) 100 16 = Plan.skip)
    ∧ (¬((99 : Nat) = 100 - 1 ∧ (17 : Nat) < DATA_READY_HOUR)
      ∧ check_status true (some 99) 100 17 =
          Plan.fetch 100 FetchMode.incremental) :=
  ⟨⟨by decide, by decide, by decide,
      check_status_cases.2.2.2.1 99 100 16 (by decide) (by decide) (by decide)⟩,
    ⟨by decide,
      check_status_cases.2.2.2.2 99 100 17 (by decide) (by decide)⟩⟩

/-! ### Structure lemmas for the columns -/

theorem padded_length (p : Nat) (vs : List ℚ) :
    (padded p vs).length = p + vs.length := by
  simp [padded]

theorem padded_succ (p : Nat) (vs : List ℚ) :
    padded (p + 1) vs = none :: padded p vs := by
  simp [padded, List.replicate_succ]

theorem take_padded (p : Nat) (vs : List ℚ) (k : Nat) :
    (padded p vs).take k = padded (min k p) (vs.take (k - p)) := by
  rw [padded, padded, List.take_append_eq_append_take, List.take_replicate,
    List.length_replicate, List.map_take]

theorem emaFrom_length (a : ℚ) : ∀ (xs : List ℚ) (y : ℚ),
    (emaFrom a y xs).length = xs.length := by
  intro xs
  induction xs with
  | nil => intro y; rfl
  | cons x t ih => intro y; simp [emaFrom, ih]

theorem emaFrom_take (a : ℚ) : ∀ (xs : List ℚ) (y : ℚ) (m : Nat),
    (emaFrom a y xs).take m = emaFrom a y (xs.take m) := by
  intro xs
  induction xs with
  | nil => intro y m; simp [emaFrom]
  | cons x t ih =>
    intro y m
    cases m with
    | zero => simp [emaFrom]
    | succ m2 => simp [emaFrom, List.take_succ_cons, ih]

theorem smoothCol_nil (a : ℚ) (n : Nat) : smoothCol a n [] = [] := by
  rw [smoothCol, if_pos, padded]
  · simp
  · rcases Nat.eq_zero_or_pos n with h | h
    · exact Or.inr h
    · exact Or.inl (by simpa using h)

theorem smoothCol_length (a : ℚ) (n : Nat) (l : List ℚ) :
    (smoothCol a n l).length = l.length := by
  rw [smoothCol]
  split
  · rw [padded_length]
    rfl
  · rename_i h
    push_neg at h
    rw [padded_length]
    simp only [List.length_cons, emaFrom_length, List.length_drop]
    omega

theorem windowEnd_take (n : Nat) (l : List ℚ) {j k : Nat} (hjk : j < k) :
    windowEnd n (l.take k) j = windowEnd n l j := by
  rw [windowEnd, windowEnd, List.take_take, Nat.min_eq_left hjk]

theorem rollingCol_take (f : List ℚ → ℚ) (n : Nat) {l : List ℚ} {k : Nat}
    (hk : k ≤ l.length) :
    rollingCol f n (l.take k) = (rollingCol f n l).take k := by
  rw [rollingCol, rollingCol, List.length_take, Nat.min_eq_left hk,
    ← List.map_take, List.take_range, Nat.min_eq_left hk]
  apply List.map_congr_left
  intro j hj
  have hjk : j < k := List.mem_range.mp hj
  rw [windowEnd_take n l hjk]

theorem smoothCol_take (a : ℚ) (n : Nat) {l : List ℚ} {k : Nat}
    (hk : k ≤ l.length) :
    smoothCol a n (l.take k) = (smoothCol a n l).take k := by
  by_cases hn : n = 0
  · subst hn
    rw [smoothCol, smoothCol, if_pos (Or.inr rfl), if_pos (Or.inr rfl),
      take_padded, List.length_take]
    simp
  · have hn1 : 1 ≤ n := Nat.one_le_iff_ne_zero.mpr hn
    by_cases hkn : k < n
    · rw [smoothCol, List.length_take, Nat.min_eq_left hk, if_pos (Or.inl hkn)]
      rw [smoothCol]
      by_cases hln : l.length < n
      · rw [if_pos (Or.inl hln), take_padded, Nat.min_eq_left hk]
        simp
      · rw [if_neg (by push_neg; exact ⟨by omega, hn⟩), take_padded,
          Nat.min_eq_left (by omega : k ≤ n - 1)]
        have h0 : k - (n - 1) = 0 := by omega
        rw [h0, List.take_zero]
    · have hnk : n ≤ k := by omega
      have hln : ¬ l.length < n := by omega
      rw [smoothCol, smoothCol, List.length_take, Nat.min_eq_left hk,
        if_neg (by push_neg; exact ⟨by omega, hn⟩),
        if_neg (by push_neg; exact ⟨by omega, hn⟩),
        List.take_take, Nat.min_eq_left hnk, take_padded,
        Nat.min_eq_right (by omega : n - 1 ≤ k)]
      have htk : k - (n - 1) = (k - n) + 1 := by omega
      rw [htk, List.take_succ_cons]
      congr 2
      rw [List.drop_take, emaFrom_take]

theorem leadNones_padded (p : Nat) (vs : List ℚ) :
    leadNones (padded p vs) = p := by
  induction p with
  | zero =>
    cases vs with
    | nil => rfl
    | cons v t => rfl
  | succ p2 ih =>
    have hstep : List.takeWhile Option.isNone (none :: padded p2 vs) =
        none :: List.takeWhile Option.isNone (padded p2 vs) := by
      simp [List.takeWhile_cons]
    rw [padded_succ]
    show (List.takeWhile Option.isNone (none :: padded p2 vs)).length = p2 + 1
    rw [hstep, List.length_cons]
    exact congrArg Nat.succ ih

theorem reduceOption_map_some (vs : List ℚ) :
    (vs.map some).reduceOption = vs := by
  induction vs with
  | nil => rfl
  | cons v t ih => simp [List.reduceOption_cons_of_some, ih]

theorem drop_padded : ∀ (p : Nat) (vs : List ℚ),
    (padded p vs).drop p = vs.map some := by
  intro p
  induction p with
  | zero => intro vs; simp [padded]
  | succ q ih => intro vs; rw [padded_succ, List.drop_succ_cons, ih]

theorem smoothOptCol_padded (a : ℚ) (n : Nat) (p : Nat) (vs : List ℚ) :
    smoothOptCol a n (padded p vs) =
      List.replicate p none ++ smoothCol a n vs := by
  rw [smoothOptCol, leadNones_padded, drop_padded, reduceOption_map_some]

theorem smoothOptCol_take (a : ℚ) (n : Nat) {x : List (Option ℚ)} {k : Nat}
    (hx : IsPadded x) (hk : k ≤ x.length) :
    smoothOptCol a n (x.take k) = (smoothOptCol a n x).take k := by
  obtain ⟨p, vs, rfl⟩ := hx
  rw [padded_length] at hk
  rw [take_padded, smoothOptCol_padded, smoothOptCol_padded,
    List.take_append_eq_append_take, List.take_replicate, List.length_replicate]
  by_cases hkp : k ≤ p
  · have h1 : k - p = 0 := by omega
    rw [h1, List.take_zero, smoothCol_nil, List.take_zero]
  · have hk2 : k - p ≤ vs.length := by omega
    rw [smoothCol_take a n hk2]

theorem zipWithOpt_some_some (f : ℚ → ℚ → ℚ) : ∀ (as bs : List ℚ),
    zipWithOpt f (as.map some) (bs.map some) = (List.zipWith f as bs).map some := by
  intro as
  induction as with
  | nil => intro bs; rfl
  | cons a t ih =>
    intro bs
    cases bs with
    | nil => rfl
    | cons b u =>
      simp only [List.map_cons, zipWithOpt, List.zipWith_cons_cons]
      rw [← zipWithOpt]
      rw [ih u]

theorem zipWithOpt_padded (f : ℚ → ℚ → ℚ) : ∀ (p2 p1 : Nat) (as bs : List ℚ),
    p1 ≤ p2 →
    zipWithOpt f (padded p1 as) (padded p2 bs) =
      padded (min p2 (p1 + as.length)) (List.zipWith f (as.drop (p2 - p1)) bs) := by
  intro p2
  induction p2 with
  | zero =>
    intro p1 as bs h
    have hp : p1 = 0 := Nat.le_zero.mp h
    subst hp
    have h0 : padded 0 as = as.map some := by simp [padded]
    have h0b : padded 0 bs = bs.map some := by simp [padded]
    rw [h0, h0b, zipWithOpt_some_some]
    simp [padded]
  | succ q ih =>
    intro p1 as bs h
    cases p1 with
    | zero =>
      cases as with
      | nil =>
        have h0 : padded 0 ([] : List ℚ) = [] := by simp [padded]
        rw [h0]
        simp [zipWithOpt, padded]
      | cons a t =>
        have h0 : padded 0 (a :: t) = some a :: padded 0 t := by simp [padded]
        rw [h0, padded_succ, zipWithOpt, List.zipWith_cons_cons, ← zipWithOpt,
          ih 0 t bs (Nat.zero_le q)]
        have hmin : min (q + 1) (0 + (a :: t).length) = min q (0 + t.length) + 1 := by
          simp only [List.length_cons]
          omega
        rw [hmin, padded_succ]
        rfl
    | succ p1' =>
      have h2 : p1' ≤ q := by omega
      rw [padded_succ, padded_succ, zipWithOpt, List.zipWith_cons_cons,
        ← zipWithOpt, ih p1' as bs h2]
      have hmin : min (q + 1) (p1' + 1 + as.length) = min q (p1' + as.length) + 1 := by
        omega
      have hsub : q + 1 - (p1' + 1) = q - p1' := by omega
      rw [hmin, hsub, padded_succ]

theorem zipWithOpt_isPadded (f : ℚ → ℚ → ℚ) {x y : List (Option ℚ)}
    (hx : IsPadded x) (hy : IsPadded y) : IsPadded (zipWithOpt f x y) := by
  obtain ⟨p1, as, rfl⟩ := hx
  obtain ⟨p2, bs, rfl⟩ := hy
  rcases Nat.le_total p1 p2 with h | h
  · exact ⟨_, _, zipWithOpt_padded f p2 p1 as bs h⟩
  · refine ⟨min p1 (p2 + bs.length), List.zipWith (fun x y => f y x) (bs.drop (p1 - p2)) as, ?_⟩
    have hfun : (fun (b a : Option ℚ) =>
        match a, b with
        | some x, some y => some (f x y)
        | _, _ => (none : Option ℚ)) =
        (fun (a b : Option ℚ) =>
        match a, b with
        | some x, some y => some (f y x)
        | _, _ => (none : Option ℚ)) := by
      funext u v
      cases u <;> cases v <;> rfl
    rw [zipWithOpt, List.zipWith_comm, hfun, ← zipWithOpt,
      zipWithOpt_padded (fun x y => f y x) p1 p2 bs as h]

theorem smoothCol_isPadded (a : ℚ) (n : Nat) (l : List ℚ) :
    IsPadded (smoothCol a n l) := by
  rw [smoothCol]
  split
  · exact ⟨_, _, rfl⟩
  · exact ⟨_, _, rfl⟩

theorem difCol_isPadded (l : List ℚ) : IsPadded (difCol l) :=
  zipWithOpt_isPadded _ (smoothCol_isPadded _ _ l) (smoothCol_isPadded _ _ l)

theorem zipWith_some (g : ℚ → ℚ → ℚ) : ∀ (as bs : List ℚ),
    List.zipWith (fun a b => some (g a b)) as bs =
      (List.zipWith g as bs).map some := by
  intro as
  induction as with
  | nil => intro bs; rfl
  | cons a t ih =>
    intro bs
    cases bs with
    | nil => rfl
    | cons b u => simp [List.zipWith_cons_cons, ih]

theorem diffCol_isPadded (l : List ℚ) : IsPadded (diffCol l) := by
  cases l with
  | nil => exact ⟨0, [], by simp [diffCol, padded]⟩
  | cons x xs =>
    refine ⟨1, List.zipWith (fun prev cur => cur - prev) (x :: xs) xs, ?_⟩
    rw [diffCol, padded_succ, zipWith_some (fun prev cur => cur - prev) (x :: xs) xs]
    simp [padded]

theorem optionMap_padded (g : ℚ → ℚ) (p : Nat) (vs : List ℚ) :
    (padded p vs).map (Option.map g) = padded p (vs.map g) := by
  rw [padded, padded, List.map_append, List.map_replicate, List.map_map,
    List.map_map]
  rfl

theorem gainsCol_isPadded (l : List ℚ) : IsPadded (gainsCol l) := by
  obtain ⟨p, vs, hp⟩ := diffCol_isPadded l
  exact ⟨p, vs.map (fun d => max d 0), by rw [gainsCol, hp, optionMap_padded]⟩

theorem lossesCol_isPadded (l : List ℚ) : IsPadded (lossesCol l) := by
  obtain ⟨p, vs, hp⟩ := diffCol_isPadded l
  exact ⟨p, vs.map (fun d => max (-d) 0), by rw [lossesCol, hp, optionMap_padded]⟩

/-! ### Length and prefix-stability lemmas for the columns -/

theorem diffCol_length (l : List ℚ) : (diffCol l).length = l.length := by
  cases l with
  | nil => rfl
  | cons x xs =>
    rw [diffCol, List.length_cons, List.length_zipWith, List.length_cons,
      Nat.min_eq_right (Nat.le_succ xs.length)]

theorem gainsCol_length (l : List ℚ) : (gainsCol l).length = l.length := by
  rw [gainsCol, List.length_map, diffCol_length]

theorem lossesCol_length (l : List ℚ) : (lossesCol l).length = l.length := by
  rw [lossesCol, List.length_map, diffCol_length]

theorem difCol_length (l : List ℚ) : (difCol l).length = l.length := by
  rw [difCol, zipWithOpt, List.length_zipWith, emaCol, emaCol,
    smoothCol_length, smoothCol_length, Nat.min_self]

theorem zipWithOpt_take (f : ℚ → ℚ → ℚ) (x y : List (Option ℚ)) (k : Nat) :
    zipWithOpt f (x.take k) (y.take k) = (zipWithOpt f x y).take k := by
  rw [zipWithOpt, ← List.take_zipWith]

theorem zipWith_congr_front {α : Type} (f : ℚ → ℚ → α) :
    ∀ (b a a2 : List ℚ), a.take b.length = a2.take b.length →
      List.zipWith f a b = List.zipWith f a2 b := by
  intro b
  induction b with
  | nil => intro a a2 _; rw [List.zipWith_nil_right, List.zipWith_nil_right]
  | cons y ys ih =>
    intro a a2 h
    cases a with
    | nil =>
      cases a2 with
      | nil => rfl
      | cons z t => simp at h
    | cons x t =>
      cases a2 with
      | nil => simp at h
      | cons z u =>
        rw [List.length_cons, List.take_succ_cons, List.take_succ_cons] at h
        injection h with h1 h2
        rw [h1, List.zipWith_cons_cons, List.zipWith_cons_cons, ih t u h2]

theorem emaCol_take (n : Nat) {l : List ℚ} {k : Nat} (hk : k ≤ l.length) :
    emaCol n (l.take k) = (emaCol n l).take k :=
  smoothCol_take _ _ hk

theorem smaCol_take (n : Nat) {l : List ℚ} {k : Nat} (hk : k ≤ l.length) :
    smaCol n (l.take k) = (smaCol n l).take k :=
  rollingCol_take _ _ hk

theorem difCol_take {l : List ℚ} {k : Nat} (hk : k ≤ l.length) :
    difCol (l.take k) = (difCol l).take k := by
  rw [difCol, difCol, emaCol_take 12 hk, emaCol_take 26 hk, zipWithOpt_take]

theorem deaCol_take {l : List ℚ} {k : Nat} (hk : k ≤ l.length) :
    deaCol (l.take k) = (deaCol l).take k := by
  rw [deaCol, deaCol, difCol_take hk,
    smoothOptCol_take _ _ (difCol_isPadded l) (by rw [difCol_length]; exact hk)]

theorem diffCol_take (l : List ℚ) (k : Nat) :
    diffCol (l.take k) = (diffCol l).take k := by
  cases l with
  | nil => simp [diffCol]
  | cons x xs =>
    cases k with
    | zero => simp [diffCol]
    | succ k2 =>
      rw [List.take_succ_cons, diffCol, diffCol, List.take_succ_cons]
      congr 1
      rw [List.take_zipWith]
      have hmk : (xs.take k2).length ≤ k2 := by
        rw [List.length_take]
        exact Nat.min_le_left k2 xs.length
      have h1 : (x :: xs.take k2).take (xs.take k2).length =
          (x :: xs).take (xs.take k2).length := by
        cases hm : (xs.take k2).length with
        | zero => rfl
        | succ m2 =>
          rw [List.take_succ_cons, List.take_succ_cons, List.take_take,
            Nat.min_eq_left (by omega : m2 ≤ k2)]
      have h2 : ((x :: xs).take k2).take (xs.take k2).length =
          (x :: xs).take (xs.take k2).length := by
        rw [List.take_take, Nat.min_eq_left hmk]
      exact (zipWith_congr_front _ _ _ _ h1).trans
        (zipWith_congr_front _ _ _ _ h2).symm

theorem gainsCol_take (l : List ℚ) (k : Nat) :
    gainsCol (l.take k) = (gainsCol l).take k := by
  rw [gainsCol, gainsCol, diffCol_take, List.map_take]

theorem lossesCol_take (l : List ℚ) (k : Nat) :
    lossesCol (l.take k) = (lossesCol l).take k := by
  rw [lossesCol, lossesCol, diffCol_take, List.map_take]

theorem rsiCol_take {l : List ℚ} {k : Nat} (hk : k ≤ l.length) :
    rsiCol (l.take k) = (rsiCol l).take k := by
  rw [rsiCol, rsiCol, gainsCol_take, lossesCol_take,
    smoothOptCol_take _ _ (gainsCol_isPadded l)
      (by rw [gainsCol_length]; exact hk),
    smoothOptCol_take _ _ (lossesCol_isPadded l)
      (by rw [lossesCol_length]; exact hk),
    zipWithOpt_take]

/-! ### Feature/backtest theorems -/

theorem colAt_take {x : List (Option ℚ)} {i k : Nat} (h : i < k) :
    colAt (x.take k) i = colAt x i := by
  rw [colAt, colAt, List.getD_eq_getElem?_getD, List.getD_eq_getElem?_getD,
    List.getElem?_take_of_lt h]

/-- **C3.** No look-ahead: every feature column the analyzer reads at the
evaluation index — the four moving averages, MACD DIF and DEA, and
RSI(14) — has the same value at index `i` whether computed over the whole
series or over any truncation that still contains row `i`: the features
at `i` depend only on rows at positions `≤ i`. -/
theorem no_lookahead (rows : List Row) (i k : Nat) (hik : i < k)
    (hk : k ≤ rows.length) :
    colAt (smaCol 5 (closesOf (rows.take k))) i
        = colAt (smaCol 5 (closesOf rows)) i
    ∧ colAt (smaCol 20 (closesOf (rows.take k))) i
        = colAt (smaCol 20 (closesOf rows)) i
    ∧ colAt (smaCol 60 (closesOf (rows.take k))) i
        = colAt (smaCol 60 (closesOf rows)) i
    ∧ colAt (smaCol 250 (closesOf (rows.take k))) i
        = colAt (smaCol 250 (closesOf rows)) i
    ∧ colAt (difCol (closesOf (rows.take k))) i
        = colAt (difCol (closesOf rows)) i
    ∧ colAt (deaCol (closesOf (rows.take k))) i
        = colAt (deaCol (closesOf rows)) i
    ∧ colAt (rsiCol (closesOf (rows.take k))) i
        = colAt (rsiCol (closesOf rows)) i := by
  have hmap : closesOf (rows.take k) = (closesOf rows).take k := by
    rw [closesOf, closesOf, ← List.map_take]
  have hlen : k ≤ (closesOf rows).length := by
    rw [closesOf, List.length_map]
    exact hk
  rw [hmap]
  exact ⟨by rw [smaCol_take 5 hlen, colAt_take hik],
    by rw [smaCol_take 20 hlen, colAt_take hik],
    by rw [smaCol_take 60 hlen, colAt_take hik],
    by rw [smaCol_take 250 hlen, colAt_take hik],
    by rw [difCol_take hlen, colAt_take hik],
    by rw [deaCol_take hlen, colAt_take hik],
    by rw [rsiCol_take hlen, colAt_take hik]⟩

/-- Witness for C3 at a concrete series, truncation point and index. -/
theorem no_lookahead_witness :
    ((0 : Nat) < 1 ∧ 1 ≤ twoRows.length)
    ∧ (colAt (smaCol 5 (closesOf (twoRows.take 1))) 0
          = colAt (smaCol 5 (closesOf twoRows)) 0
      ∧ colAt (smaCol 20 (closesOf (twoRows.take 1))) 0
          = colAt (smaCol 20 (closesOf twoRows)) 0
      ∧ colAt (smaCol 60 (closesOf (twoRows.take 1))) 0
          = colAt (smaCol 60 (closesOf twoRows)) 0
      ∧ colAt (smaCol 250 (closesOf (twoRows.take 1))) 0
          = colAt (smaCol 250 (closesOf twoRows)) 0
      ∧ colAt (difCol (closesOf (twoRows.take 1))) 0
          = colAt (difCol (closesOf twoRows)) 0
      ∧ colAt (deaCol (closesOf (twoRows.take 1))) 0
          = colAt (deaCol (closesOf twoRows)) 0
      ∧ colAt (rsiCol (closesOf (twoRows.take 1))) 0
          = colAt (rsiCol (closesOf twoRows)) 0) :=
  ⟨⟨by decide, by decide⟩, no_lookahead twoRows 0 1 (by decide) (by decide)⟩

theorem lastIdxLe_aux (t : Nat) : ∀ (rows : List Row) (c : Nat) (acc : Option Nat),
    (∀ j, acc = some j → j < c) →
    ∀ j, (rows.foldl (fun (a : Nat × Option Nat) r =>
      (a.1 + 1, if r.date ≤ t then some a.1 else a.2)) (c, acc)).2 = some j →
      j < c + rows.length := by
  intro rows
  induction rows with
  | nil =>
    intro c acc hinv j hj
    simp only [List.foldl_nil] at hj
    have := hinv j hj
    omega
  | cons r rest ih =>
    intro c acc hinv j hj
    simp only [List.foldl_cons] at hj
    have hinv2 : ∀ j2, (if r.date ≤ t then some c else acc) = some j2 → j2 < c + 1 := by
      intro j2 h2
      by_cases hd : r.date ≤ t
      · rw [if_pos hd] at h2
        injection h2 with h3
        omega
      · rw [if_neg hd] at h2
        have := hinv j2 h2
        omega
    have := ih (c + 1) _ hinv2 j hj
    simp only [List.length_cons]
    omega

/-- The evaluation index found for a backtest date is a real row
position. -/
theorem lastIdxLe_lt {rows : List Row} {t i : Nat}
    (h : lastIdxLe rows t = some i) : i < rows.length := by
  rw [lastIdxLe] at h
  have := lastIdxLe_aux t rows 0 none (by intro j hj; cases hj) i h
  simpa using this

/-- The resolved evaluation index is a real row position. -/
theorem resolveIdx_lt {rows : List Row} {b : Bool} {bd : Option Nat} {i : Nat}
    (hlen : 0 < rows.length) (h : resolveIdx rows b bd = some i) :
    i < rows.length := by
  cases b with
  | false =>
    simp only [resolveIdx] at h
    injection h with h2
    omega
  | true =>
    cases bd with
    | none =>
      simp only [resolveIdx] at h
      injection h with h2
      omega
    | some t =>
      simp only [resolveIdx] at h
      cases hl : lastIdxLe rows t with
      | none => rw [hl] at h; cases h
      | some i2 =>
        rw [hl] at h
        have h2 : (if i2 < 60 then (none : Option Nat) else some i2) = some i := h
        by_cases h60 : i2 < 60
        · rw [if_pos h60] at h2
          cases h2
        · rw [if_neg h60] at h2
          injection h2 with h3
          subst h3
          exact lastIdxLe_lt hl

/-- **C4.** Insufficient history yields no result: a series shorter than
60 rows is dropped outright, and in backtest mode an evaluation index
resolved below row 60 (fewer than 60 rows before it) is dropped as well —
omitted, not zero-filled. -/
theorem insufficient_history (rows : List Row) (isVip watchOnly backtest : Bool)
    (btDate : Option Nat) :
    (rows.length < 60 →
      processOneStock rows isVip watchOnly backtest btDate = none)
    ∧ (∀ t i, backtest = true → btDate = some t → lastIdxLe rows t = some i →
        i < 60 → processOneStock rows isVip watchOnly backtest btDate = none) := by
  constructor
  · intro h
    rw [processOneStock, if_pos h]
  · intro t i hb hbd hlast h60
    subst hb
    subst hbd
    rw [processOneStock]
    by_cases h1 : rows.length < 60
    · rw [if_pos h1]
    · rw [if_neg h1]
      have hres : resolveIdx rows true (some t) = none := by
        simp [resolveIdx, hlast, h60]
      by_cases h2 : (watchOnly && !isVip) = true
      · rw [if_pos h2]
      · rw [if_neg h2, hres]

/-- Witness for C4: a 59-row series is dropped, and a backtest date
resolving to row index 59 of a 60-row series is dropped. -/
theorem insufficient_history_witness :
    ((List.replicate 59 row0).length < 60
      ∧ processOneStock (List.replicate 59 row0) false false false none = none)
    ∧ (lastIdxLe (List.replicate 60 row0) 0 = some 59
      ∧ (59 : Nat) < 60
      ∧ processOneStock (List.replicate 60 row0) true false true (some 0) = none) :=
  ⟨⟨by decide,
    (insufficient_history (List.replicate 59 row0) false false false none).1
      (by decide)⟩,
   ⟨by decide, by decide,
    (insufficient_history (List.replicate 60 row0) true false true (some 0)).2
      0 59 rfl rfl (by decide) (by decide)⟩⟩

/-- **C5.** The inclusion verdict: for an analyzable series (≥ 60 rows, a
resolved evaluation index, full scope), a result row is produced iff the
symbol is on the watchlist or `matched` holds, where `matched` is exactly
`close > MA20` OR (`MACD golden cross` OR `KDJ golden cross`): watchlist
symbols are always retained, non-watchlist symbols are dropped exactly
when `matched` is false. -/
theorem strategy_inclusion (rows : List Row) (isVip backtest : Bool)
    (btDate : Option Nat) (i : Nat)
    (hlen : 60 ≤ rows.length)
    (hidx : resolveIdx rows backtest btDate = some i) :
    ((processOneStock rows isVip false backtest btDate).isSome = true
      ↔ (isVip = true ∨ strategyPassAt rows i = true))
    ∧ strategyPassAt rows i
        = (cond1At rows i || (macdGoldAt rows i || kdjGoldAt rows i)) := by
  refine ⟨?_, rfl⟩
  have hi : i < rows.length := resolveIdx_lt (by omega) hidx
  have hcurr : rows[i]? = some rows[i] := List.getElem?_eq_getElem hi
  rw [processOneStock, if_neg (by omega : ¬ rows.length < 60),
    if_neg (by simp : ¬ (false && !isVip) = true)]
  simp only [hidx, hcurr]
  cases hv : isVip <;> cases hsp : strategyPassAt rows i <;> simp [hsp]

/-- Witness for C5 at a concrete watchlist symbol over a flat series. -/
theorem strategy_inclusion_witness :
    (60 ≤ (constRows 60).length
      ∧ resolveIdx (constRows 60) false none = some 59)
    ∧ (((processOneStock (constRows 60) true false false none).isSome = true
        ↔ (true = true ∨ strategyPassAt (constRows 60) 59 = true))
      ∧ strategyPassAt (constRows 60) 59
          = (cond1At (constRows 60) 59
            || (macdGoldAt (constRows 60) 59 || kdjGoldAt (constRows 60) 59))) :=
  ⟨⟨by decide, by decide⟩,
    strategy_inclusion (constRows 60) true false none 59 (by decide) (by decide)⟩

/-- **C6 counterexample.** The "watchlist observation" reason (the empty
reason list) is NOT only reachable for watchlist symbols: a non-watchlist
symbol that passes the filter solely through a KDJ golden cross — with
`close ≤ MA20`, MACD death cross and no volume surge — is retained with
the empty reason list. -/
theorem watchlist_observation_counterexample :
    processOneStock kdjOnlyRows false false false none =
      some { evalDate := 59, buyPrice := 50, reasons := [],
             isWatchlist := false, bt := none }
    ∧ kdjGoldAt kdjOnlyRows 59 = true
    ∧ cond1At kdjOnlyRows 59 = false
    ∧ macdGoldAt kdjOnlyRows 59 = false
    ∧ volRelAt kdjOnlyRows 59 = 1 := by
  with_unfolding_all decide

/-- **C6 (amended).** For every retained symbol the reason list holds, in
the fixed precedence order "above monthly line", "MACD golden cross",
"volume surge", exactly the reasons whose condition is true; the empty
list (rendered `自选观察`, "watchlist observation") occurs exactly when
none of the three hold, which requires the symbol to be on the watchlist
or to pass the filter through a KDJ golden cross — so the reason is
reachable for non-watchlist symbols as well. -/
theorem match_reasons (rows : List Row) (isVip backtest : Bool)
    (btDate : Option Nat) (i : Nat) (res : StockResult)
    (hidx : resolveIdx rows backtest btDate = some i)
    (hres : processOneStock rows isVip false backtest btDate = some res) :
    res.reasons = reasonsAt rows i
    ∧ (Reason.aboveMonthly ∈ res.reasons ↔ cond1At rows i = true)
    ∧ (Reason.macdGolden ∈ res.reasons ↔ macdGoldAt rows i = true)
    ∧ (Reason.volSurge ∈ res.reasons ↔ 3 / 2 < volRelAt rows i)
    ∧ res.reasons.Pairwise (fun a b => reasonRank a < reasonRank b)
    ∧ (res.reasons = [] → (isVip = true ∨ kdjGoldAt rows i = true)) := by
  by_cases h1 : rows.length < 60
  · rw [processOneStock, if_pos h1] at hres
    cases hres
  · rw [processOneStock, if_neg h1, if_neg (by simp : ¬ (false && !isVip) = true)]
      at hres
    simp only [hidx] at hres
    cases hcurr : rows[i]? with
    | none =>
      simp only [hcurr] at hres
      cases hres
    | some curr =>
      simp only [hcurr] at hres
      by_cases hp : (!strategyPassAt rows i && !isVip) = true
      · rw [if_pos hp] at hres
        cases hres
      · rw [if_neg hp] at hres
        injection hres with h2
        subst h2
        refine ⟨rfl, ?_, ?_, ?_, ?_, ?_⟩
        · show Reason.aboveMonthly ∈ reasonsAt rows i ↔ cond1At rows i = true
          by_cases hc1 : cond1At rows i = true <;>
            by_cases hc2 : macdGoldAt rows i = true <;>
            by_cases hc3 : (3 : ℚ) / 2 < volRelAt rows i <;>
            simp [reasonsAt, hc1, hc2, hc3]
        · show Reason.macdGolden ∈ reasonsAt rows i ↔ macdGoldAt rows i = true
          by_cases hc1 : cond1At rows i = true <;>
            by_cases hc2 : macdGoldAt rows i = true <;>
            by_cases hc3 : (3 : ℚ) / 2 < volRelAt rows i <;>
            simp [reasonsAt, hc1, hc2, hc3]
        · show Reason.volSurge ∈ reasonsAt rows i ↔ 3 / 2 < volRelAt rows i
          by_cases hc1 : cond1At rows i = true <;>
            by_cases hc2 : macdGoldAt rows i = true <;>
            by_cases hc3 : (3 : ℚ) / 2 < volRelAt rows i <;>
            simp [reasonsAt, hc1, hc2, hc3]
        · show (reasonsAt rows i).Pairwise (fun a b => reasonRank a < reasonRank b)
          by_cases hc1 : cond1At rows i = true <;>
            by_cases hc2 : macdGoldAt rows i = true <;>
            by_cases hc3 : (3 : ℚ) / 2 < volRelAt rows i <;>
            norm_num [reasonsAt, hc1, hc2, hc3, reasonRank, List.pairwise_cons]
        · show reasonsAt rows i = [] → (isVip = true ∨ kdjGoldAt rows i = true)
          intro hempty
          by_cases hc1 : cond1At rows i = true
          · simp [reasonsAt, hc1] at hempty
          · by_cases hc2 : macdGoldAt rows i = true
            · simp [reasonsAt, hc1, hc2] at hempty
            · cases hv : isVip with
              | true => exact Or.inl rfl
              | false =>
                rw [hv] at hp
                simp only [Bool.not_false, Bool.and_true, Bool.not_eq_true,
                  Bool.not_eq_false] at hp
                rw [strategyPassAt] at hp
                simp only [Bool.not_eq_true] at hc1 hc2
                rw [hc1, hc2] at hp
                simp only [Bool.false_or] at hp
                exact Or.inr (by simpa using hp)

/-- Witness for the amended C6 at the KDJ-only series. -/
theorem match_reasons_witness :
    (resolveIdx kdjOnlyRows false none = some 59
      ∧ processOneStock kdjOnlyRows false false false none = some obsRes)
    ∧ (obsRes.reasons = reasonsAt kdjOnlyRows 59
      ∧ (Reason.aboveMonthly ∈ obsRes.reasons ↔ cond1At kdjOnlyRows 59 = true)
      ∧ (Reason.macdGolden ∈ obsRes.reasons ↔ macdGoldAt kdjOnlyRows 59 = true)
      ∧ (Reason.volSurge ∈ obsRes.reasons ↔ 3 / 2 < volRelAt kdjOnlyRows 59)
      ∧ obsRes.reasons.Pairwise (fun a b => reasonRank a < reasonRank b)
      ∧ (obsRes.reasons = [] →
          (false = true ∨ kdjGoldAt kdjOnlyRows 59 = true))) :=
  ⟨⟨by decide, by with_unfolding_all decide⟩,
    match_reasons kdjOnlyRows false false none 59 obsRes (by decide)
      (by with_unfolding_all decide)⟩

theorem closesOf_drop_getD (rows : List Row) (m j : Nat) :
    (closesOf (rows.drop m)).getD j 0 = (closesOf rows).getD (m + j) 0 := by
  rw [closesOf, closesOf, List.map_drop, List.getD_eq_getElem?_getD,
    List.getD_eq_getElem?_getD, List.getElem?_drop]

theorem closeAt_eq {rows : List Row} {i : Nat} (hi : i < rows.length) :
    closeAt rows i = rows[i].close := by
  rw [closeAt, closesOf, List.getD_eq_getElem?_getD, List.getElem?_map,
    List.getElem?_eq_getElem hi]
  rfl

/-- **C8 counterexample.** The stored point return is not the raw ratio
`(close_{i+k} − close_i)/close_i`: the code stores that ratio as a
percentage rounded to two decimals.  With `close_i = 10` and
`close_{i+5} = 15` the stored `T+5` column is `50.0`, not `1/2`. -/
theorem backtest_return_unit_counterexample :
    processOneStock fwdRows true false true (some 60) =
      some { evalDate := 60, buyPrice := 10, reasons := [],
             isWatchlist := true,
             bt := some { t5 := 50, t10 := 0, t30 := 0, maxGain := 100 } }
    ∧ ((closesOf fwdRows).getD 65 0 - (closesOf fwdRows).getD 60 0)
        / (closesOf fwdRows).getD 60 0 = 1 / 2
    ∧ (50 : ℚ) ≠ 1 / 2 := by
  with_unfolding_all decide

/-- **C8 (amended).** In backtest mode the forward outcomes use only rows
strictly after the evaluation index `i`: the point return at offset
`k ∈ {5,10,30}` is populated only when at least `k` future rows exist and
then equals `(close_{i+k} − close_i)/close_i` expressed as a percentage
rounded (half-even) to two decimals, otherwise it stays at the default 0
("unknown"); the max forward gain uses the highs of the at-most-30 rows
after `i` whenever at least one future row exists. -/
theorem backtest_returns (rows : List Row) (isVip : Bool) (btDate : Option Nat)
    (i : Nat) (res : StockResult)
    (hidx : resolveIdx rows true btDate = some i)
    (hres : processOneStock rows isVip false true btDate = some res) :
    res.bt = some
      { t5 := if 5 ≤ rows.length - (i + 1) then
          pyRound2 (((closesOf rows).getD (i + 5) 0 - closeAt rows i)
            / closeAt rows i * 100) else 0
      , t10 := if 10 ≤ rows.length - (i + 1) then
          pyRound2 (((closesOf rows).getD (i + 10) 0 - closeAt rows i)
            / closeAt rows i * 100) else 0
      , t30 := if 30 ≤ rows.length - (i + 1) then
          pyRound2 (((closesOf rows).getD (i + 30) 0 - closeAt rows i)
            / closeAt rows i * 100) else 0
      , maxGain := if 0 < rows.length - (i + 1) then
          pyRound2 ((maxQ ((highsOf (rows.drop (i + 1))).take 30)
            - closeAt rows i) / closeAt rows i * 100) else 0 } := by
  by_cases h1 : rows.length < 60
  · rw [processOneStock, if_pos h1] at hres
    cases hres
  · rw [processOneStock, if_neg h1, if_neg (by simp : ¬ (false && !isVip) = true)]
      at hres
    simp only [hidx] at hres
    have hi : i < rows.length := resolveIdx_lt (by omega) hidx
    have hcurr : rows[i]? = some rows[i] := List.getElem?_eq_getElem hi
    simp only [hcurr] at hres
    by_cases hp : (!strategyPassAt rows i && !isVip) = true
    · rw [if_pos hp] at hres
      cases hres
    · rw [if_neg hp] at hres
      injection hres with h2
      subst h2
      show (if (true : Bool) = true then some (btReturnsAt rows i rows[i].close)
        else none) = _
      rw [if_pos rfl]
      rw [btReturnsAt]
      have hclose : rows[i].close = closeAt rows i := (closeAt_eq hi).symm
      have hlen : (rows.drop (i + 1)).length = rows.length - (i + 1) :=
        List.length_drop _ _
      have h5 : (i + 1) + 4 = i + 5 := by omega
      have h10 : (i + 1) + 9 = i + 10 := by omega
      have h30 : (i + 1) + 29 = i + 30 := by omega
      simp only [hclose, hlen, closesOf_drop_getD, h5, h10, h30]

/-- Witness for the amended C8: exactly 10 future rows give computed T+5
and T+10 returns while T+30 keeps the "unknown" default. -/
theorem backtest_returns_witness :
    (resolveIdx fwdRows10 true (some 60) = some 60
      ∧ processOneStock fwdRows10 true false true (some 60) = some resFwd10)
    ∧ resFwd10.bt = some
      { t5 := if 5 ≤ fwdRows10.length - (60 + 1) then
          pyRound2 (((closesOf fwdRows10).getD (60 + 5) 0 - closeAt fwdRows10 60)
            / closeAt fwdRows10 60 * 100) else 0
      , t10 := if 10 ≤ fwdRows10.length - (60 + 1) then
          pyRound2 (((closesOf fwdRows10).getD (60 + 10) 0 - closeAt fwdRows10 60)
            / closeAt fwdRows10 60 * 100) else 0
      , t30 := if 30 ≤ fwdRows10.length - (60 + 1) then
          pyRound2 (((closesOf fwdRows10).getD (60 + 30) 0 - closeAt fwdRows10 60)
            / closeAt fwdRows10 60 * 100) else 0
      , maxGain := if 0 < fwdRows10.length - (60 + 1) then
          pyRound2 ((maxQ ((highsOf (fwdRows10.drop (60 + 1))).take 30)
            - closeAt fwdRows10 60) / closeAt fwdRows10 60 * 100) else 0 } :=
  ⟨⟨by decide, by with_unfolding_all decide⟩,
    backtest_returns fwdRows10 true (some 60) 60 resFwd10 (by decide)
      (by with_unfolding_all decide)⟩

end StockHunter
